import Mathlib

/-!
# Ledger server: identity directory (`Server::add_client`)

Shallow embedding of `src/proj_algebra/src/server.cpp` and of the declarations of
`src/proj_algebra/include/server.h`.

* `std::string` is `String`; `id += std::to_string(n)` is `id ++ toString n`.
* The member `clients` is used by `server.cpp` as a `std::map` keyed by the id string
  (`clients.find(id)`, `clients[id] = new_client`); it is an association list here, and the
  `std::map` invariant (keys pairwise distinct) is the predicate `UniqueIds`.
* `std::mt19937 rng(rd())` is a fresh engine per call: the stream `rng : Nat → Nat` gives the
  raw output of its `k`-th use.
* `dist(rng)` is `dist (rng k)`: a number of 1000..9999, any of which can be drawn
  (`dist_range`, `dist_onto_range`).
* The `while` loop of `add_client` has no counter in the source.  `add_client_loop` takes the
  number of loop tests it may still perform; `add_client` gives it one more than the number of
  keys, which is never used up (`add_client_loop_fuel`) and can be replaced by any larger
  number without changing the outcome (`add_client_loop_fuel_irrelevant`).
* `get_client`, `get_wallet`, `parse_trx`, `add_pending_trx` and `mine` are declared in
  `server.h` without a body in the sources.  Of these only the admission gate
  `add_pending_trx` is modelled, from the specification; registration is always the embedded
  `add_client`.
-/

namespace Ledger

/-! ## Definitions embedded from the source -/

/-- Modelled from the spec: the class `Client` (the spec's Participant) is not among the
sources.  `add_client` only builds it with `Client(id)`, so the record keeps the id it was
built from; key material is produced by the external crypto library and balances are, by
`server.h`, the business of the server map. -/
structure Client where
  id : String
deriving DecidableEq

/-- The class `Server`: its only data member is `clients`. -/
structure Server where
  clients : List (String × Client)
deriving DecidableEq

/-- The constructor `Server::Server()`, whose body is blank: an empty directory. -/
def Server.new : Server := { clients := [] }

/-- The call `clients.find(id)`: the mapped value when `id` is a key (`it != clients.end()`),
`none` when it is not (`it == clients.end()`). -/
def find : List (String × Client) → String → Option Client
  | [], _ => none
  | (k, v) :: rest, id => if k = id then some v else find rest id

/-- The statement `clients[id] = new_client`: overwrite the value of an existing key, insert
the key otherwise. -/
def assign : List (String × Client) → String → Client → List (String × Client)
  | [], id, c => [(id, c)]
  | (k, v) :: rest, id, c => if k = id then (k, c) :: rest else (k, v) :: assign rest id c

/-- The keys of the directory. -/
def keys (clients : List (String × Client)) : List String := clients.map Prod.fst

/-- The invariant of `std::map`: no key occurs twice. -/
def UniqueIds (s : Server) : Prop := (keys s.clients).Nodup

instance (s : Server) : Decidable (UniqueIds s) := by
  unfold UniqueIds; infer_instance

/-- The object `std::uniform_int_distribution<int> dist(1000, 9999)` applied to a raw engine
output: an integer of the closed range 1000..9999. -/
def dist (raw : Nat) : Nat := 1000 + raw % (9999 - 1000 + 1)

/-- The loop of `add_client` (server.cpp lines 19-24), started at candidate `id` with `k`
suffixes already drawn.  Each round tests `it != clients.end()`; on a hit it appends
`std::to_string(dist(rng))` to `id` and looks the new candidate up.  Returns the free id and
the number of suffixes drawn, `none` when `fuel` loop tests did not reach a free id. -/
def add_client_loop (clients : List (String × Client)) (rng : Nat → Nat) :
    Nat → String → Nat → Option (String × Nat)
  | 0, _, _ => none
  | fuel + 1, id, k =>
    match find clients id with
    | none => some (id, k)
    | some _ => add_client_loop clients rng fuel (id ++ toString (dist (rng k))) (k + 1)

/-- The method `Server::add_client` (server.cpp lines 13-29): run the collision loop, build
`std::make_shared<Client>(id)` for the final id, store it with `clients[id] = new_client` and
return it together with the new server state. -/
def add_client (s : Server) (rng : Nat → Nat) (id : String) : Option (Client × Server) :=
  match add_client_loop s.clients rng (s.clients.length + 1) id 0 with
  | none => none
  | some (id', _) =>
    let new_client : Client := { id := id' }
    some (new_client, { clients := assign s.clients id' new_client })

/-! ## The admission gate of the specification

`server.h` only declares `add_pending_trx`; its body is not among the sources.  The
definitions below follow the specification (§3, §4.3, §6, §7).  Amounts and balances are the
specification's decimals, taken as rationals. -/

/-- Modelled from the spec: the error taxonomy of §7 (no error type exists in the sources). -/
inductive LedgerError where
  | MalformedTransaction
  | UnknownParticipant
  | InvalidSignature
  | InsufficientFunds
  | DirectoryExhausted
  | NotFound
  | SealingAborted
deriving DecidableEq

/-- Modelled from the spec: the Participant record of §3 (the class `Client` is not among the
sources). -/
structure Participant where
  id : String
  public_key : String
  private_key_handle : String
  balance : ℚ
deriving DecidableEq

/-- Modelled from the spec: the Transaction record of §3 (no such type is in the sources). -/
structure Transaction where
  sender_id : String
  receiver_id : String
  amount : ℚ
  raw_message : String
  signature : String
deriving DecidableEq

/-- Modelled from the spec: the state of the core, the Identity Directory and the Pending Pool
(the sources declare only the `clients` member). -/
structure LedgerState where
  directory : List Participant
  pool : List Transaction
deriving DecidableEq

/-- Modelled from the spec: the parts the specification leaves to collaborators or leaves
open, taken as parameters: the parser of the wire format of §6 (`Server::parse_trx`, declared
only; delimiter and decimal syntax are not fixed), the canonical message of §4.3 step 3, the
signature check of the crypto library and the block digest of §4.4. -/
structure Collaborator where
  parse_trx : String → Option (String × String × ℚ)
  canonical : String → String → ℚ → String
  verify : String → String → String → Bool
  digest : List Transaction → Nat → String

/-- Modelled from the spec: `lookup(id)` of §4.1 (`Server::get_client`, declared only); `none`
is the `NotFound` signal. -/
def lookup : List Participant → String → Option Participant
  | [], _ => none
  | p :: rest, id => if p.id = id then some p else lookup rest id

/-- Modelled from the spec: the Transaction Validator of §4.3 (`Server::add_pending_trx`,
declared only).  The gates are taken in the order of the specification; a rejection leaves the
state as it was, an admission appends the transaction to the pool and touches no balance. -/
def add_pending_trx (co : Collaborator) (st : LedgerState) (trx signature : String) :
    Except LedgerError Unit × LedgerState :=
  match co.parse_trx trx with
  | none => (.error .MalformedTransaction, st)
  | some (sender_id, receiver_id, amount) =>
    match lookup st.directory sender_id, lookup st.directory receiver_id with
    | some sender, some _ =>
      if co.verify sender.public_key (co.canonical sender_id receiver_id amount) signature then
        if 0 < amount ∧ amount ≤ sender.balance then
          (.ok (),
            { st with pool := st.pool ++ [{ sender_id := sender_id, receiver_id := receiver_id,
                                            amount := amount, raw_message := trx,
                                            signature := signature }] })
        else (.error .InsufficientFunds, st)
      else (.error .InvalidSignature, st)
    | _, _ => (.error .UnknownParticipant, st)

/-! ## Definitions used to state and prove the claims -/

/-- A concrete collaborator for the worked examples: one transaction string is well formed,
a signature is the public key followed by the canonical message, and the digest of a block
is the numeral of its size plus the nonce. -/
def demo_collaborator : Collaborator :=
  { parse_trx := fun s => if s = "alice-bob-3" then some ("alice", "bob", 3) else none
    canonical := fun s r _ => s ++ ">" ++ r
    verify := fun pk msg sig => decide (sig = pk ++ ":" ++ msg)
    digest := fun txs n => toString (txs.length + n) }

/-- A ledger for the worked examples in which only `alice` is registered, with balance 5. -/
def demo_alice_only : LedgerState :=
  { directory := [{ id := "alice", public_key := "pub-a", private_key_handle := "priv-a",
                    balance := 5 }],
    pool := [] }

/-- The number of keys at least as long as a candidate of length `n`: the loop's variant. -/
def longKeys (ks : List String) (n : Nat) : Nat := (ks.filter (fun key => n ≤ key.length)).length

/-- The number of suffixes `add_client` draws (the number of collisions it meets). -/
def add_client_retries (s : Server) (rng : Nat → Nat) (id : String) : Option Nat :=
  (add_client_loop s.clients rng (s.clients.length + 1) id 0).map Prod.snd

/-- The text appended to the requested id after `k` collisions: the decimal numerals of the
first `k` draws, each appended to what was there before. -/
def suffixes (rng : Nat → Nat) : Nat → String
  | 0 => ""
  | k + 1 => suffixes rng k ++ toString (dist (rng k))

/-- A directory in which the ids `base`, `base1000`, `base10001000`, ... with up to `n`
suffixes are all taken. -/
def chain (base : String) : Nat → List (String × Client)
  | 0 => [(base, { id := base })]
  | n + 1 =>
    (base ++ suffixes (fun _ => 0) (n + 1), { id := base ++ suffixes (fun _ => 0) (n + 1) })
      :: chain base n

/-! ## Lemmas on the directory operations -/

theorem find_eq_none_iff (clients : List (String × Client)) (id : String) :
    find clients id = none ↔ id ∉ keys clients := by
  induction clients with
  | nil => simp [find, keys]
  | cons e rest ih =>
    obtain ⟨k, v⟩ := e
    by_cases h : k = id
    · simp [find, keys, h]
    · have h' : ¬ id = k := fun e => h e.symm
      simp only [find, h, if_false, ih, keys, List.map_cons, List.mem_cons, h', false_or]

theorem find_isSome_iff (clients : List (String × Client)) (id : String) :
    (find clients id).isSome ↔ id ∈ keys clients := by
  rw [← not_iff_not, ← find_eq_none_iff]
  cases find clients id <;> simp

theorem keys_assign_of_not_mem (clients : List (String × Client)) (id : String) (c : Client)
    (h : id ∉ keys clients) : keys (assign clients id c) = keys clients ++ [id] := by
  induction clients with
  | nil => simp [assign, keys]
  | cons e rest ih =>
    obtain ⟨k, v⟩ := e
    have hk : ¬ k = id := by
      intro e; apply h; simp [keys, e]
    have hr : id ∉ keys rest := by
      intro hm; apply h; simp only [keys, List.map_cons, List.mem_cons]; right; exact hm
    have := ih hr
    simp only [keys] at this
    simp [assign, hk, keys, this]

theorem find_assign_self (clients : List (String × Client)) (id : String) (c : Client) :
    find (assign clients id c) id = some c := by
  induction clients with
  | nil => simp [assign, find]
  | cons e rest ih =>
    obtain ⟨k, v⟩ := e
    by_cases h : k = id
    · simp [assign, find, h]
    · simp [assign, find, h, ih]

theorem find_assign_of_ne (clients : List (String × Client)) (id id' : String) (c : Client)
    (h : id' ≠ id) : find (assign clients id c) id' = find clients id' := by
  induction clients with
  | nil =>
    have : ¬ id = id' := fun e => h e.symm
    simp [assign, find, this]
  | cons e rest ih =>
    obtain ⟨k, v⟩ := e
    by_cases hk : k = id
    · have : ¬ id = id' := fun e => h e.symm
      simp [assign, find, hk, this]
    · by_cases hk' : k = id'
      · subst hk'
        simp [assign, find, h]
      · simp [assign, find, hk, hk', ih]

/-! ## Lemmas on the suffixes -/

theorem toDigitsCore_step (f n : Nat) (ds : List Char) (h : n / 10 ≠ 0) :
    Nat.toDigitsCore 10 (f + 1) n ds
      = Nat.toDigitsCore 10 f (n / 10) (Nat.digitChar (n % 10) :: ds) := by
  rw [Nat.toDigitsCore]; simp [h]

theorem toDigitsCore_stop (f n : Nat) (ds : List Char) (h : n / 10 = 0) :
    Nat.toDigitsCore 10 (f + 1) n ds = Nat.digitChar (n % 10) :: ds := by
  rw [Nat.toDigitsCore]; simp [h]

/-- A numeral of 1000..9999 is printed by `std::to_string` with four characters. -/
theorem toString_length_four (n : Nat) (h1 : 1000 ≤ n) (h2 : n ≤ 9999) :
    (toString n).length = 4 := by
  show (Nat.repr n).length = 4
  have e : n + 1 = (n - 3) + 1 + 1 + 1 + 1 := by omega
  unfold Nat.repr Nat.toDigits
  rw [e, toDigitsCore_step _ _ _ (by omega), toDigitsCore_step _ _ _ (by omega),
    toDigitsCore_step _ _ _ (by omega), toDigitsCore_stop _ _ _ (by omega)]
  rfl

theorem dist_range (raw : Nat) : 1000 ≤ dist raw ∧ dist raw ≤ 9999 := by
  unfold dist; omega

/-- Every integer of 1000..9999 is a possible draw. -/
theorem dist_onto_range (n : Nat) (h1 : 1000 ≤ n) (h2 : n ≤ 9999) : ∃ raw, dist raw = n :=
  ⟨n - 1000, by unfold dist; omega⟩

theorem dist_length (raw : Nat) : (toString (dist raw)).length = 4 :=
  toString_length_four _ (dist_range raw).1 (dist_range raw).2

theorem suffixes_length (rng : Nat → Nat) (k : Nat) : (suffixes rng k).length = 4 * k := by
  induction k with
  | zero => rfl
  | succ k ih => simp only [suffixes, String.length_append, ih, dist_length]; omega

theorem append_suffixes_succ (rng : Nat → Nat) (id : String) (k : Nat) :
    id ++ suffixes rng (k + 1) = (id ++ suffixes rng k) ++ toString (dist (rng k)) := by
  simp only [suffixes, String.append_assoc]

theorem append_suffixes_zero (rng : Nat → Nat) (id : String) : id ++ suffixes rng 0 = id := by
  simp [suffixes]

/-! ## Lemmas on the collision loop -/

theorem longKeys_le_length (ks : List String) (n : Nat) : longKeys ks n ≤ ks.length :=
  List.length_filter_le _ _

theorem longKeys_mono (ks : List String) (a b : Nat) (hab : a ≤ b) :
    longKeys ks b ≤ longKeys ks a := by
  induction ks with
  | nil => simp [longKeys]
  | cons x rest ih =>
    simp only [longKeys, List.filter_cons] at ih ⊢
    by_cases hb : b ≤ x.length
    · have ha : a ≤ x.length := le_trans hab hb
      simp only [hb, ha, decide_True, if_true, List.length_cons]; omega
    · by_cases ha : a ≤ x.length
      · simp only [hb, ha, decide_True, decide_False, if_true, List.length_cons]
        simp only [Bool.false_eq_true, if_false]; omega
      · simp only [hb, ha, decide_False, Bool.false_eq_true, if_false]; omega

theorem longKeys_lt (ks : List String) (x : String) (hx : x ∈ ks) (b : Nat)
    (hb : x.length < b) : longKeys ks b < longKeys ks x.length := by
  induction ks with
  | nil => simp at hx
  | cons y rest ih =>
    have hmono := longKeys_mono rest x.length b (le_of_lt hb)
    simp only [longKeys, List.filter_cons] at ih hmono ⊢
    rcases List.mem_cons.mp hx with rfl | hmem
    · have h1 : ¬ b ≤ x.length := by omega
      simp only [h1, decide_False, Bool.false_eq_true, if_false, le_refl, decide_True, if_true,
        List.length_cons]
      omega
    · have := ih hmem
      by_cases h1 : b ≤ y.length
      · have h2 : x.length ≤ y.length := by omega
        simp only [h1, h2, decide_True, if_true, List.length_cons]; omega
      · by_cases h2 : x.length ≤ y.length
        · simp only [h1, h2, decide_True, decide_False, Bool.false_eq_true, if_false, if_true,
            List.length_cons]
          omega
        · simp only [h1, h2, decide_False, Bool.false_eq_true, if_false]; omega

/-- More loop tests than the variant allows are never needed: the loop ends at a free id,
after at most `longKeys` collisions. -/
theorem add_client_loop_fuel (clients : List (String × Client)) (rng : Nat → Nat) :
    ∀ (fuel : Nat) (id : String) (k : Nat), longKeys (keys clients) id.length < fuel →
      ∃ id' k', add_client_loop clients rng fuel id k = some (id', k') ∧
        k' ≤ k + longKeys (keys clients) id.length := by
  intro fuel
  induction fuel with
  | zero => intro id k h; omega
  | succ fuel ih =>
    intro id k h
    cases hf : find clients id with
    | none => exact ⟨id, k, by simp [add_client_loop, hf], by omega⟩
    | some c =>
      have hmem : id ∈ keys clients := by
        rw [← find_isSome_iff, hf]; rfl
      have hlen : id.length < (id ++ toString (dist (rng k))).length := by
        rw [String.length_append, dist_length]; omega
      have hlt := longKeys_lt (keys clients) id hmem _ hlen
      obtain ⟨id', k', h1, h2⟩ := ih (id ++ toString (dist (rng k))) (k + 1) (by omega)
      exact ⟨id', k', by simp [add_client_loop, hf, h1], by omega⟩

/-- Additional loop tests do not change the outcome of a loop that ended. -/
theorem add_client_loop_mono (clients : List (String × Client)) (rng : Nat → Nat) :
    ∀ (fuel extra : Nat) (id : String) (k : Nat) (r : String × Nat),
      add_client_loop clients rng fuel id k = some r →
      add_client_loop clients rng (fuel + extra) id k = some r := by
  intro fuel
  induction fuel with
  | zero => intro extra id k r h; simp [add_client_loop] at h
  | succ fuel ih =>
    intro extra id k r h
    have e : fuel + 1 + extra = (fuel + extra) + 1 := by omega
    rw [e]
    cases hf : find clients id with
    | none => simpa [add_client_loop, hf] using h
    | some c =>
      simp only [add_client_loop, hf] at h ⊢
      exact ih extra _ _ r h

/-- The number of loop tests `add_client` allows is no restriction: any larger number gives
the same outcome, so the loop of the source, which has no counter, ends with that outcome. -/
theorem add_client_loop_fuel_irrelevant (clients : List (String × Client)) (rng : Nat → Nat)
    (id : String) (fuel : Nat) (h : clients.length + 1 ≤ fuel) :
    add_client_loop clients rng fuel id 0
      = add_client_loop clients rng (clients.length + 1) id 0 := by
  have hfuel : longKeys (keys clients) id.length < clients.length + 1 := by
    have := longKeys_le_length (keys clients) id.length
    simp only [keys, List.length_map] at this
    simp only [keys]; omega
  obtain ⟨id', k', h1, -⟩ := add_client_loop_fuel clients rng _ id 0 hfuel
  have := add_client_loop_mono clients rng _ (fuel - (clients.length + 1)) id 0 _ h1
  rw [h1, ← this]
  congr 1
  omega

/-- What the loop returns: the requested id followed by the first `k'` suffixes, where every
shorter candidate was taken and this one is free. -/
theorem add_client_loop_spec (clients : List (String × Client)) (rng : Nat → Nat)
    (id : String) :
    ∀ (fuel k : Nat) (id' : String) (k' : Nat),
      add_client_loop clients rng fuel (id ++ suffixes rng k) k = some (id', k') →
      k ≤ k' ∧ id' = id ++ suffixes rng k' ∧ find clients id' = none ∧
        ∀ j, k ≤ j → j < k' → (find clients (id ++ suffixes rng j)).isSome := by
  intro fuel
  induction fuel with
  | zero => intro k id' k' h; simp [add_client_loop] at h
  | succ fuel ih =>
    intro k id' k' h
    cases hf : find clients (id ++ suffixes rng k) with
    | none =>
      simp only [add_client_loop, hf, Option.some.injEq, Prod.mk.injEq] at h
      obtain ⟨h1, h2⟩ := h
      subst h1 h2
      exact ⟨le_refl _, rfl, hf, fun j hj hj' => by omega⟩
    | some c =>
      simp only [add_client_loop, hf] at h
      rw [← append_suffixes_succ] at h
      obtain ⟨h1, h2, h3, h4⟩ := ih (k + 1) id' k' h
      refine ⟨by omega, h2, h3, ?_⟩
      intro j hj hj'
      by_cases e : j = k
      · subst e; rw [hf]; rfl
      · exact h4 j (by omega) hj'

/-- The outcome of `add_client`, in full. -/
theorem add_client_spec (s : Server) (rng : Nat → Nat) (id : String) :
    ∃ k, add_client s rng id
        = some ({ id := id ++ suffixes rng k },
            { clients := assign s.clients (id ++ suffixes rng k) { id := id ++ suffixes rng k } })
      ∧ add_client_retries s rng id = some k
      ∧ find s.clients (id ++ suffixes rng k) = none
      ∧ (∀ j, j < k → (find s.clients (id ++ suffixes rng j)).isSome)
      ∧ k ≤ s.clients.length := by
  have hfuel : longKeys (keys s.clients) id.length < s.clients.length + 1 := by
    have := longKeys_le_length (keys s.clients) id.length
    simp only [keys, List.length_map] at this
    simp only [keys]; omega
  obtain ⟨id', k', h1, h2⟩ := add_client_loop_fuel s.clients rng _ id 0 hfuel
  have h1' := h1
  rw [← append_suffixes_zero rng id] at h1'
  obtain ⟨-, h4, h5, h6⟩ := add_client_loop_spec s.clients rng id _ 0 id' k' h1'
  subst h4
  refine ⟨k', by simp [add_client, h1], by simp [add_client_retries, h1], h5,
    fun j hj => h6 j (Nat.zero_le _) hj, ?_⟩
  have := longKeys_le_length (keys s.clients) id.length
  simp only [keys, List.length_map] at this
  simp only [keys] at h2
  omega

theorem suffixes_congr (rng1 rng2 : Nat → Nat) (k : Nat)
    (h : ∀ j, j < k → dist (rng1 j) = dist (rng2 j)) :
    ∀ j, j ≤ k → suffixes rng1 j = suffixes rng2 j := by
  intro j
  induction j with
  | zero => intro _; rfl
  | succ j ih =>
    intro hj
    simp only [suffixes, ih (by omega), h j (by omega)]

theorem chain_mem (base : String) (n : Nat) :
    ∀ j, j ≤ n → base ++ suffixes (fun _ => 0) j ∈ keys (chain base n) := by
  induction n with
  | zero =>
    intro j hj
    have : j = 0 := by omega
    subst this
    simp [chain, keys, suffixes]
  | succ n ih =>
    intro j hj
    by_cases e : j = n + 1
    · subst e; simp [chain, keys]
    · have := ih j (by omega)
      simp only [chain, keys, List.map_cons, List.mem_cons] at this ⊢
      right; exact this

/-- The directory `chain "a" 2` holds `a`, `a1000` and `a10001000`; registering `a` with
draws that always give 1000 meets three collisions and registers `a100010001000`. -/
theorem chain_two_retries :
    keys (chain "a" 2) = ["a10001000", "a1000", "a"] ∧
    add_client_retries { clients := chain "a" 2 } (fun _ => 0) "a" = some 3 ∧
    (add_client { clients := chain "a" 2 } (fun _ => 0) "a").map (fun r => r.1.id)
      = some "a100010001000" := by
  decide

/-! ## The claims on `Server::add_client` -/

/-- C1: identifier uniqueness is an invariant of `add_client`.  For every directory state
(a map, keys pairwise distinct), every draw stream and every requested id, `add_client`
returns, the id it stores the new client under was not a key before the call, that id then
resolves to the new client, the keys afterwards are the old keys and this one (exactly one
more key), and the keys are still pairwise distinct. -/
theorem add_client_preserves_unique_ids (s : Server) (rng : Nat → Nat) (id : String)
    (h : UniqueIds s) :
    ∃ c s', add_client s rng id = some (c, s') ∧
      c.id ∉ keys s.clients ∧
      find s'.clients c.id = some c ∧
      keys s'.clients = keys s.clients ++ [c.id] ∧
      (keys s'.clients).length = (keys s.clients).length + 1 ∧
      UniqueIds s' := by
  obtain ⟨k, h1, -, h3, -, -⟩ := add_client_spec s rng id
  have hnot : id ++ suffixes rng k ∉ keys s.clients := (find_eq_none_iff _ _).mp h3
  have hkeys := keys_assign_of_not_mem s.clients _ { id := id ++ suffixes rng k } hnot
  refine ⟨_, _, h1, hnot, find_assign_self _ _ _, hkeys, ?_, ?_⟩
  · simp only [hkeys, List.length_append, List.length_singleton]
  · unfold UniqueIds at h ⊢
    simp only [hkeys]
    rw [List.nodup_append]
    refine ⟨h, List.nodup_singleton _, ?_⟩
    intro a ha hb
    rw [List.mem_singleton] at hb
    subst hb
    exact hnot ha

/-- Witness of C1: the directory holding `alice`, in which a second `alice` is registered. -/
theorem add_client_preserves_unique_ids_witness :
    UniqueIds { clients := [("alice", { id := "alice" })] } ∧
    ∃ c s', add_client { clients := [("alice", { id := "alice" })] } (fun _ => 0) "alice"
        = some (c, s') ∧
      c.id ∉ keys [("alice", ({ id := "alice" } : Client))] ∧
      find s'.clients c.id = some c ∧
      keys s'.clients = keys [("alice", ({ id := "alice" } : Client))] ++ [c.id] ∧
      (keys s'.clients).length = (keys [("alice", ({ id := "alice" } : Client))]).length + 1 ∧
      UniqueIds s' :=
  ⟨by decide, add_client_preserves_unique_ids _ _ _ (by decide)⟩

/-- C2 (the code at the failing input): registering `alice` in the empty directory stores the
client handle under the key `alice` and nothing else; the body of `add_client` writes no
balance, and the starting balance of 5 of its documentation appears nowhere in it. -/
theorem add_client_records_no_balance :
    add_client Server.new (fun _ => 0) "alice"
      = some ({ id := "alice" }, { clients := [("alice", { id := "alice" })] }) := by
  decide

/-- C3: two successive `add_client` calls with the same requested id, from any directory and
with any draws, both return; the two participants have different ids, both ids resolve in the
directory afterwards (each to its own participant), and the id of the second is not the
requested one.  With `id = "alice"` and `alice` free at the start this is the scenario of the
claim, where moreover the first participant is `alice` itself. -/
theorem add_client_twice_distinct (s : Server) (rng1 rng2 : Nat → Nat) (id : String) :
    ∃ c1 s1 c2 s2, add_client s rng1 id = some (c1, s1) ∧
      add_client s1 rng2 id = some (c2, s2) ∧
      c1.id ≠ c2.id ∧
      find s2.clients c1.id = some c1 ∧
      find s2.clients c2.id = some c2 ∧
      c2.id ≠ id ∧
      (find s.clients id = none → c1.id = id) := by
  obtain ⟨k1, h1, -, h3, h4, -⟩ := add_client_spec s rng1 id
  obtain ⟨k2, g1, -, g3, g4, -⟩ := add_client_spec
    { clients := assign s.clients (id ++ suffixes rng1 k1) { id := id ++ suffixes rng1 k1 } }
    rng2 id
  have hne : id ++ suffixes rng1 k1 ≠ id ++ suffixes rng2 k2 := by
    intro e
    rw [← e, find_assign_self] at g3
    exact Option.noConfusion g3
  refine ⟨_, _, _, _, h1, g1, hne, ?_, find_assign_self _ _ _, ?_, ?_⟩
  · show find (assign _ _ _) (id ++ suffixes rng1 k1) = _
    rw [find_assign_of_ne _ _ _ _ hne, find_assign_self]
  · show id ++ suffixes rng2 k2 ≠ id
    cases k2 with
    | zero =>
      exfalso
      rw [append_suffixes_zero] at g3
      cases k1 with
      | zero =>
        rw [append_suffixes_zero, find_assign_self] at g3
        exact Option.noConfusion g3
      | succ k1 =>
        have hid : id ≠ id ++ suffixes rng1 (k1 + 1) := by
          intro e
          have := congrArg String.length e
          rw [String.length_append, suffixes_length] at this
          omega
        rw [find_assign_of_ne _ _ _ _ hid] at g3
        have := h4 0 (by omega)
        rw [append_suffixes_zero, g3] at this
        exact Bool.noConfusion this
    | succ k2 =>
      intro e
      have := congrArg String.length e
      rw [String.length_append, suffixes_length] at this
      omega
  · intro hfree
    show id ++ suffixes rng1 k1 = id
    cases k1 with
    | zero => exact append_suffixes_zero _ _
    | succ k1 =>
      have := h4 0 (by omega)
      rw [append_suffixes_zero, hfree] at this
      exact Bool.noConfusion this

/-- C4: `add_client` always returns, and the id it registers the participant under is exactly
the requested id, with no suffix drawn, if and only if the requested id was not registered
before the call; so a suffix is appended only when the requested id already exists, and then
one always is. -/
theorem add_client_exact_id_iff_free (s : Server) (rng : Nat → Nat) (id : String) :
    ∃ c s' k, add_client s rng id = some (c, s') ∧
      add_client_retries s rng id = some k ∧
      find s'.clients c.id = some c ∧
      (find s.clients id = none ↔ c.id = id) ∧
      (find s.clients id = none ↔ k = 0) ∧
      ((find s.clients id).isSome ↔ id.length < c.id.length) := by
  obtain ⟨k, h1, h2, h3, h4, -⟩ := add_client_spec s rng id
  refine ⟨_, _, k, h1, h2, find_assign_self _ _ _, ?_, ?_, ?_⟩
  · show find s.clients id = none ↔ id ++ suffixes rng k = id
    constructor
    · intro hfree
      cases k with
      | zero => exact append_suffixes_zero _ _
      | succ k =>
        have := h4 0 (by omega)
        rw [append_suffixes_zero, hfree] at this
        exact Bool.noConfusion this
    · intro e
      rw [e] at h3
      exact h3
  · constructor
    · intro hfree
      cases k with
      | zero => rfl
      | succ k =>
        have := h4 0 (by omega)
        rw [append_suffixes_zero, hfree] at this
        exact Bool.noConfusion this
    · intro e
      subst e
      rw [append_suffixes_zero] at h3
      exact h3
  · show (find s.clients id).isSome ↔ id.length < (id ++ suffixes rng k).length
    rw [String.length_append, suffixes_length]
    constructor
    · intro hs
      cases k with
      | zero =>
        rw [append_suffixes_zero] at h3
        rw [h3] at hs
        exact Bool.noConfusion hs
      | succ k => omega
    · intro hlt
      have := h4 0 (by omega)
      rw [append_suffixes_zero] at this
      exact this

/-- C5 (as stated, refuted): no fixed number caps the retries of `add_client`, and it does
not fail when every candidate within such a number collides.  For any proposed cap the
directory `chain "" cap`, with draws that always give 1000, makes the loop retry `cap + 1`
times and then register the participant. -/
theorem add_client_no_fixed_retry_cap :
    ¬ ∃ cap : Nat, ∀ (s : Server) (rng : Nat → Nat) (id : String),
      (∀ k, add_client_retries s rng id = some k → k ≤ cap) ∧
      ((∀ j, j ≤ cap → (find s.clients (id ++ suffixes rng j)).isSome) →
        add_client s rng id = none) := by
  rintro ⟨cap, hcap⟩
  obtain ⟨hbound, -⟩ := hcap { clients := chain "" cap } (fun _ => 0) ""
  obtain ⟨k, -, h2, h3, -, -⟩ := add_client_spec { clients := chain "" cap } (fun _ => 0) ""
  have hk := hbound k h2
  have hmem := chain_mem "" cap k hk
  exact (find_eq_none_iff _ _).mp h3 hmem

/-- C5 (amended): the collision loop of `add_client` needs no cap and has no failure outcome.
For every directory state, draw stream and requested id, `add_client` returns a participant
after at most as many retries as the directory has keys, and registers it: the directory
afterwards has the old keys and the new one. -/
theorem add_client_retries_le_size (s : Server) (rng : Nat → Nat) (id : String) :
    ∃ c s' k, add_client s rng id = some (c, s') ∧
      add_client_retries s rng id = some k ∧
      k ≤ (keys s.clients).length ∧
      keys s'.clients = keys s.clients ++ [c.id] := by
  obtain ⟨k, h1, h2, h3, -, h5⟩ := add_client_spec s rng id
  have hnot : id ++ suffixes rng k ∉ keys s.clients := (find_eq_none_iff _ _).mp h3
  refine ⟨_, _, k, h1, h2, ?_, keys_assign_of_not_mem _ _ _ hnot⟩
  simpa [keys] using h5

/-- C6 (as stated, refuted): the registered id is not a function of the directory state and
the requested id alone.  With `alice` taken, one run draws 1000 and registers `alice1000`,
another draws 1001 and registers `alice1001`. -/
theorem add_client_not_deterministic :
    ¬ ∀ (s : Server) (id : String) (rng1 rng2 : Nat → Nat),
      (add_client s rng1 id).map (fun r => r.1.id)
        = (add_client s rng2 id).map (fun r => r.1.id) := by
  intro h
  have := h { clients := [("alice", { id := "alice" })] } "alice" (fun _ => 0) (fun _ => 1)
  revert this
  decide

/-- C6 (amended): the outcome of `add_client` is a function of the directory state, the
requested id and the suffixes the call draws.  Two runs from the same state with the same
requested id whose draws agree on the suffixes the first run consumes return the same
participant and the same directory. -/
theorem add_client_deterministic_given_draws (s : Server) (id : String)
    (rng1 rng2 : Nat → Nat) (k : Nat)
    (hk : add_client_retries s rng1 id = some k)
    (hagree : ∀ j, j < k → dist (rng1 j) = dist (rng2 j)) :
    add_client s rng2 id = add_client s rng1 id := by
  obtain ⟨k1, h1, h2, h3, h4, -⟩ := add_client_spec s rng1 id
  obtain ⟨k2, g1, -, g3, g4, -⟩ := add_client_spec s rng2 id
  rw [h2] at hk
  have hk' : k1 = k := Option.some.inj hk
  subst hk'
  have hsuf := suffixes_congr rng1 rng2 k1 hagree
  have hk2 : k2 = k1 := by
    rcases Nat.lt_trichotomy k2 k1 with hlt | heq | hgt
    · have := h4 k2 hlt
      rw [hsuf k2 (by omega), g3] at this
      exact Bool.noConfusion this
    · exact heq
    · have := g4 k1 hgt
      rw [← hsuf k1 (le_refl _), h3] at this
      exact Bool.noConfusion this
  subst hk2
  rw [h1, g1, hsuf k2 (le_refl _)]

/-- Witness of C6 (amended): with `alice` taken, the raw outputs 0 and 9000 both give the
suffix 1000, and the runs agree whatever the second stream holds later. -/
theorem add_client_deterministic_given_draws_witness :
    add_client_retries { clients := [("alice", { id := "alice" })] } (fun _ => 0) "alice"
        = some 1 ∧
    (∀ j, j < 1 → dist ((fun _ => 0) j) = dist ((fun j => if j = 0 then 9000 else 5) j)) ∧
    add_client { clients := [("alice", { id := "alice" })] }
        (fun j => if j = 0 then 9000 else 5) "alice"
      = add_client { clients := [("alice", { id := "alice" })] } (fun _ => 0) "alice" :=
  ⟨by decide, by decide,
    add_client_deterministic_given_draws _ _ _ _ 1 (by decide) (by decide)⟩

/-- C9: frame of registration.  `add_client` always returns; every key present before the
call is present afterwards and resolves to the same value; every id other than the new one
resolves as before; the new id was not a key; and the keys afterwards are the old keys and
the new one. -/
theorem add_client_frame (s : Server) (rng : Nat → Nat) (id : String) :
    ∃ c s', add_client s rng id = some (c, s') ∧
      (∀ key, key ∈ keys s.clients →
        key ∈ keys s'.clients ∧ find s'.clients key = find s.clients key) ∧
      (∀ key, key ≠ c.id → find s'.clients key = find s.clients key) ∧
      c.id ∉ keys s.clients ∧
      keys s'.clients = keys s.clients ++ [c.id] := by
  obtain ⟨k, h1, -, h3, -, -⟩ := add_client_spec s rng id
  have hnot : id ++ suffixes rng k ∉ keys s.clients := (find_eq_none_iff _ _).mp h3
  have hkeys := keys_assign_of_not_mem s.clients _ { id := id ++ suffixes rng k } hnot
  refine ⟨_, _, h1, ?_, ?_, hnot, hkeys⟩
  · intro key hkey
    constructor
    · show key ∈ keys (assign _ _ _)
      rw [hkeys]
      exact List.mem_append_left _ hkey
    · apply find_assign_of_ne
      intro e
      subst e
      exact hnot hkey
  · intro key hkey
    exact find_assign_of_ne _ _ _ _ hkey

/-- C10: shape of derived ids.  `add_client` always returns, having met some number `k` of
collisions; the id it registers (the one key the directory gains, under which the returned
participant is stored) is the requested id followed by the numerals of the first `k` draws,
appended one after the other; each drawn number lies in 1000..9999 and prints with
exactly 4 characters, so the id is `4 * k` characters longer than the requested one; each
candidate with fewer than `k` suffixes was taken and the one with `k` is free; each candidate
is the previous one with one more numeral appended; and `k = 0` exactly when the requested
id was free. -/
theorem add_client_id_shape (s : Server) (rng : Nat → Nat) (id : String) :
    ∃ c s' k, add_client s rng id = some (c, s') ∧
      add_client_retries s rng id = some k ∧
      keys s'.clients = keys s.clients ++ [id ++ suffixes rng k] ∧
      find s'.clients (id ++ suffixes rng k) = some c ∧
      id ++ suffixes rng k ∉ keys s.clients ∧
      c.id = id ++ suffixes rng k ∧
      suffixes rng k
        = (List.range k).foldl (fun acc j => acc ++ toString (dist (rng j))) "" ∧
      (∀ j, j < k → 1000 ≤ dist (rng j) ∧ dist (rng j) ≤ 9999 ∧
        (toString (dist (rng j))).length = 4) ∧
      c.id.length = id.length + 4 * k ∧
      (∀ j, j < k → (find s.clients (id ++ suffixes rng j)).isSome) ∧
      find s.clients (id ++ suffixes rng k) = none ∧
      (∀ j, id ++ suffixes rng (j + 1) = (id ++ suffixes rng j) ++ toString (dist (rng j))) ∧
      (k = 0 ↔ find s.clients id = none) := by
  obtain ⟨k, h1, h2, h3, h4, -⟩ := add_client_spec s rng id
  have hnot : id ++ suffixes rng k ∉ keys s.clients := (find_eq_none_iff _ _).mp h3
  refine ⟨_, _, k, h1, h2, keys_assign_of_not_mem _ _ _ hnot, find_assign_self _ _ _, hnot,
    rfl, ?_, ?_, ?_, h4, h3, ?_, ?_⟩
  · clear h1 h2 h3 h4 hnot
    induction k with
    | zero => rfl
    | succ k ih => rw [List.range_succ, List.foldl_append, ← ih]; rfl
  · intro j _
    exact ⟨(dist_range _).1, (dist_range _).2, dist_length _⟩
  · show (id ++ suffixes rng k).length = _
    rw [String.length_append, suffixes_length]
  · intro j
    exact append_suffixes_succ rng id j
  · constructor
    · intro e
      subst e
      rw [append_suffixes_zero] at h3
      exact h3
    · intro hfree
      cases k with
      | zero => rfl
      | succ k =>
        have := h4 0 (by omega)
        rw [append_suffixes_zero, hfree] at this
        exact Bool.noConfusion this

/-! ## The claim on admission -/

/-- C8 (as stated, refuted): a transaction to an unregistered receiver is rejected although
its signature is authentic for the sender's public key and its amount is positive and within
the sender's balance.  In the ledger holding only alice (balance 5), the transfer of 3 from
alice to bob, signed by alice, is refused with `UnknownParticipant`. -/
theorem add_pending_trx_unknown_receiver_rejected :
    demo_collaborator.parse_trx "alice-bob-3" = some ("alice", "bob", 3) ∧
    lookup demo_alice_only.directory "alice"
      = some { id := "alice", public_key := "pub-a", private_key_handle := "priv-a",
               balance := 5 } ∧
    demo_collaborator.verify "pub-a" (demo_collaborator.canonical "alice" "bob" 3)
      "pub-a:alice>bob" = true ∧
    (0 : ℚ) < 3 ∧ (3 : ℚ) ≤ 5 ∧
    add_pending_trx demo_collaborator demo_alice_only "alice-bob-3" "pub-a:alice>bob"
      = (.error .UnknownParticipant, demo_alice_only) := by
  refine ⟨rfl, rfl, by decide, by norm_num, by norm_num, ?_⟩
  have hab : ¬ ("alice" = "bob") := by decide
  simp [add_pending_trx, demo_collaborator, demo_alice_only, lookup, hab]

/-- C8 (amended): the admission gate.  For every transaction string and signature,
`add_pending_trx` changes no participant record, and either the string parses, sender and
receiver are both registered, the signature verifies under the sender's public key for the
canonical message, the amount is positive and not greater than the sender's balance, and the
transaction is appended to the pending list; or these conditions do not all hold and the
call is rejected with the state, pending list included, unchanged. -/
theorem add_pending_trx_gate (co : Collaborator) (st : LedgerState) (trx signature : String) :
    (add_pending_trx co st trx signature).2.directory = st.directory ∧
    ((∃ s r a sender receiver,
        co.parse_trx trx = some (s, r, a) ∧ lookup st.directory s = some sender ∧
        lookup st.directory r = some receiver ∧
        co.verify sender.public_key (co.canonical s r a) signature = true ∧
        0 < a ∧ a ≤ sender.balance ∧
        add_pending_trx co st trx signature
          = (.ok (),
             { directory := st.directory,
               pool := st.pool ++ [{ sender_id := s, receiver_id := r, amount := a,
                                     raw_message := trx, signature := signature }] }))
      ∨
      ((¬ ∃ s r a sender receiver,
          co.parse_trx trx = some (s, r, a) ∧ lookup st.directory s = some sender ∧
          lookup st.directory r = some receiver ∧
          co.verify sender.public_key (co.canonical s r a) signature = true ∧
          0 < a ∧ a ≤ sender.balance) ∧
        ∃ e, add_pending_trx co st trx signature = (.error e, st))) := by
  cases hp : co.parse_trx trx with
  | none =>
    refine ⟨by simp [add_pending_trx, hp], Or.inr ⟨?_, .MalformedTransaction, by simp [add_pending_trx, hp]⟩⟩
    rintro ⟨s, r, a, sender, receiver, h, -⟩
    exact Option.noConfusion h
  | some sra =>
    obtain ⟨s, r, a⟩ := sra
    cases hs : lookup st.directory s with
    | none =>
      refine ⟨by simp [add_pending_trx, hp, hs],
        Or.inr ⟨?_, .UnknownParticipant, by simp [add_pending_trx, hp, hs]⟩⟩
      rintro ⟨s', r', a', sender, receiver, h, h', -⟩
      simp only [Option.some.injEq, Prod.mk.injEq] at h
      obtain ⟨rfl, rfl, rfl⟩ := h
      rw [hs] at h'
      exact Option.noConfusion h'
    | some sender =>
      cases hr : lookup st.directory r with
      | none =>
        refine ⟨by simp [add_pending_trx, hp, hs, hr],
          Or.inr ⟨?_, .UnknownParticipant, by simp [add_pending_trx, hp, hs, hr]⟩⟩
        rintro ⟨s', r', a', sender', receiver, h, -, h', -⟩
        simp only [Option.some.injEq, Prod.mk.injEq] at h
        obtain ⟨rfl, rfl, rfl⟩ := h
        rw [hr] at h'
        exact Option.noConfusion h'
      | some receiver =>
        by_cases hv : co.verify sender.public_key (co.canonical s r a) signature = true
        · by_cases ha : 0 < a ∧ a ≤ sender.balance
          · refine ⟨by simp [add_pending_trx, hp, hs, hr, hv, ha],
              Or.inl ⟨s, r, a, sender, receiver, rfl, hs, hr, hv, ha.1, ha.2, ?_⟩⟩
            simp [add_pending_trx, hp, hs, hr, hv, ha]
          · refine ⟨by simp [add_pending_trx, hp, hs, hr, hv, ha],
              Or.inr ⟨?_, .InsufficientFunds, by simp [add_pending_trx, hp, hs, hr, hv, ha]⟩⟩
            rintro ⟨s', r', a', sender', receiver', h, h', -, -, h1, h2⟩
            simp only [Option.some.injEq, Prod.mk.injEq] at h
            obtain ⟨rfl, rfl, rfl⟩ := h
            rw [hs] at h'
            obtain rfl := Option.some.inj h'
            exact ha ⟨h1, h2⟩
        · refine ⟨by simp [add_pending_trx, hp, hs, hr, hv],
            Or.inr ⟨?_, .InvalidSignature, by simp [add_pending_trx, hp, hs, hr, hv]⟩⟩
          rintro ⟨s', r', a', sender', receiver', h, h', -, h1, -⟩
          simp only [Option.some.injEq, Prod.mk.injEq] at h
          obtain ⟨rfl, rfl, rfl⟩ := h
          rw [hs] at h'
          obtain rfl := Option.some.inj h'
          exact hv h1

end Ledger
